import Mathlib

/-!
Verification of the unique-store dictionary
(src/vespalib/src/vespa/vespalib/datastore/unique_store_dictionary.hpp).

The dictionary facade (add, find, remove, move_entries, build, freeze,
get_num_uniques, get_memory_usage) is translated from the source header.
The underlying ordered node store (a copy-on-write B-tree: lowerBound,
insert, remove, thaw, writeKey, freeze, getFrozenView) is not part of the
excerpted sources, so it is modelled from the spec (sections 3 and 4.2):
the live tree is a list of nodes in tree order, each node carrying its key
(an entry handle) and a flag recording whether the physical node is still
shared with the published frozen view; the frozen view is a snapshot of
the key sequence taken at the last freeze call.

Entry handles (EntryRef) are modelled as natural numbers, with 0 the
invalid/null sentinel (the default-constructed EntryRef). An entry
comparator compares handles by the value they refer to; the invalid
handle stands for the externally supplied probe value, exactly as the
comparator wrapper in the source uses EntryRef() as the lookup slot.
-/

namespace UniqueStore

/-- Modelled from the spec: an entry comparator defines one fixed total
order by value; valuation gives the value stored at a (valid) handle and
probe is the external lookup value that the invalid handle stands for. -/
structure Cmp where
  valuation : Nat → Nat
  probe : Nat

/-- Modelled from the spec: the value a comparator associates to a handle;
the invalid handle 0 denotes the probe value. -/
def Cmp.v (c : Cmp) (r : Nat) : Nat :=
  if r = 0 then c.probe else c.valuation r

/-- Modelled from the spec: the strict order the comparator induces, the
shallow embedding of operator() on the comparator (a is less than b). -/
def Cmp.lt (c : Cmp) (a b : Nat) : Bool :=
  decide (c.v a < c.v b)

/-- Modelled from the spec: one tree entry; key is an entry handle, and
shared records whether this physical node is still part of the published
frozen view (copy-on-write sharing). -/
structure Node where
  key : Nat
  shared : Bool
deriving DecidableEq, Repr

/-- Modelled from the spec: the dictionary state; live is the live tree
as its ordered node sequence, frozen is the key sequence of the last
published frozen view. -/
structure Dict where
  live : List Node
  frozen : List Nat
deriving DecidableEq, Repr

/-- Modelled from the spec: the node at which lowerBound stops is less
than the probe slot r under the comparator; dropping the longest prefix
of such nodes positions the iterator at the first key not less than r. -/
def belowKey (c : Cmp) (r : Nat) (n : Node) : Bool :=
  c.lt n.key r

/-- Result of UniqueStoreDictionary::add, from unique_store_add_result.h:
the handle together with the wasInserted flag. -/
structure UniqueStoreAddResult where
  ref : Nat
  wasInserted : Bool
deriving DecidableEq, Repr

/-- UniqueStoreDictionary::add from the source: probe with lowerBound at
the invalid handle (the comparator supplies the lookup value); if the
iterator is valid and the probe value is not less than the key found,
return that key with wasInserted false; otherwise call insertEntry once,
insert the fresh handle at the iterator position and return it with
wasInserted true. The allocation callback is embedded as a state
transformer so that the number of its invocations is observable. -/
def add {α : Type} (c : Cmp) (insertEntry : α → Nat × α) (st : α) (d : Dict) :
    UniqueStoreAddResult × α × Dict :=
  let pre := d.live.takeWhile (belowKey c 0)
  let rest := d.live.dropWhile (belowKey c 0)
  match rest with
  | itrNode :: _ =>
    if c.lt 0 itrNode.key then
      let p := insertEntry st
      (⟨p.1, true⟩, p.2, { d with live := pre ++ ⟨p.1, false⟩ :: rest })
    else
      (⟨itrNode.key, false⟩, st, d)
  | [] =>
    let p := insertEntry st
    (⟨p.1, true⟩, p.2, { d with live := pre ++ ⟨p.1, false⟩ :: rest })

/-- UniqueStoreDictionary::find from the source: probe with lowerBound at
the invalid handle; if the iterator is valid and the probe value is not
less than the key found, return that key, else the invalid handle. The
dictionary is returned unchanged: the body only reads. -/
def find (c : Cmp) (d : Dict) : Nat × Dict :=
  match d.live.dropWhile (belowKey c 0) with
  | itrNode :: _ =>
    if c.lt 0 itrNode.key then (0, d) else (itrNode.key, d)
  | [] => (0, d)

/-- UniqueStoreDictionary::remove from the source: assert the handle is
valid, probe with lowerBound at that handle, assert the iterator is valid
and its key equals the handle, then unlink that node. A failed assertion
is a fatal contract violation, modelled as none; on success the new state
is returned. -/
def remove (c : Cmp) (ref : Nat) (d : Dict) : Option Dict :=
  if ref = 0 then none
  else
    let pre := d.live.takeWhile (belowKey c ref)
    let rest := d.live.dropWhile (belowKey c ref)
    match rest with
    | itrNode :: rest2 =>
      if itrNode.key = ref then some { d with live := pre ++ rest2 } else none
    | [] => none

/-- UniqueStoreDictionary::move_entries loop body from the source, over
the live node sequence: for each node ask the compactable collaborator
for the moved handle; when it differs, thaw the node (unshare it from
the frozen view) and rewrite its key in place, else leave the node
untouched. -/
def moveLoop (move : Nat → Nat) : List Node → List Node
  | [] => []
  | n :: rest =>
    let newRef := move n.key
    (if newRef ≠ n.key then { key := newRef, shared := false } else n) :: moveLoop move rest

/-- UniqueStoreDictionary::move_entries from the source: advance over the
whole live tree applying the loop body; the frozen view is untouched. -/
def move_entries (move : Nat → Nat) (d : Dict) : Dict :=
  { d with live := moveLoop move d.live }

/-- UniqueStoreDictionary::freeze from the source: publish the current
live tree as the new frozen view; per the spec the published nodes become
shared (copy-on-write) with the frozen snapshot. -/
def freeze (d : Dict) : Dict :=
  { live := d.live.map (fun n => { n with shared := true }),
    frozen := d.live.map (fun n => n.key) }

/-- UniqueStoreDictionary::get_num_uniques from the source: the size of
the frozen view. -/
def get_num_uniques (d : Dict) : Nat :=
  d.frozen.length

/-- Modelled from the spec: get_memory_usage is introspection computed
from the frozen view (the backing tree getMemoryUsage is not in the
excerpted sources); abstracted as a caller-supplied accounting function
of the frozen key sequence. -/
def get_memory_usage (accounting : List Nat → Nat) (d : Dict) : Nat :=
  accounting d.frozen

/-- UniqueStoreDictionary::build loop from the source, over the parallel
ref and ref-count sequences past the first (reserved) slot: a nonzero
ref count inserts the handle through the builder, a zero ref count hands
the handle to the hold callback instead. Returns the built node sequence
and the sequence of held handles in call order. -/
def buildLoop : List (Nat × Nat) → List Node × List Nat
  | [] => ([], [])
  | (r, cnt) :: rest =>
    let p := buildLoop rest
    if cnt ≠ 0 then (⟨r, false⟩ :: p.1, p.2) else (p.1, r :: p.2)

/-- UniqueStoreDictionary::build from the source: assert the two
sequences have equal length and are not empty (a violation is fatal and
happens before any mutation, modelled as none); skip the first element,
run the loop, and assign the built tree as the new live tree. Returns
the new state together with the handles passed to the hold callback. -/
def build (refs ref_counts : List Nat) (d : Dict) : Option (Dict × List Nat) :=
  if refs.length = ref_counts.length ∧ refs ≠ [] then
    let p := buildLoop ((refs.zip ref_counts).drop 1)
    some ({ d with live := p.1 }, p.2)
  else none

/-- Modelled from the spec: one writer mutation, used to quantify over
interleaved writer activity after a freeze. The add case carries the
handle its allocation callback would return. -/
inductive WriterOp where
  | addOp (c : Cmp) (newRef : Nat)
  | removeOp (c : Cmp) (ref : Nat)
  | moveOp (move : Nat → Nat)

/-- Modelled from the spec: apply one writer mutation to the dictionary
state; a remove whose assertions fire aborts the process and is modelled
as leaving no new state, kept here as the unchanged state. -/
def applyOp (d : Dict) : WriterOp → Dict
  | .addOp c r => (add c (fun u => (r, u)) () d).2.2
  | .removeOp c r => (remove c r d).getD d
  | .moveOp f => move_entries f d

/-- Iterated add with one comparator and one allocation callback,
threading the allocator state and the dictionary through the calls and
collecting the results, used to state the uniqueness property over a
whole sequence of add calls. -/
def addIter {α : Type} (c : Cmp) (insertEntry : α → Nat × α) :
    Nat → α → Dict → List UniqueStoreAddResult × α × Dict
  | 0, st, d => ([], st, d)
  | m + 1, st, d =>
    let p := add c insertEntry st d
    let q := addIter c insertEntry m p.2.1 p.2.2
    (p.1 :: q.1, q.2.1, q.2.2)

/-- Keys of the live tree in tree order. -/
def Dict.keys (d : Dict) : List Nat :=
  d.live.map (fun n => n.key)

/-- Well-formed state for one comparator family: every stored handle is
valid (nonzero) and the live keys are strictly increasing in the value
order the comparator defines, as the spec requires of the ordered node
store. -/
def SortedFor (c : Cmp) (d : Dict) : Prop :=
  (∀ n ∈ d.live, n.key ≠ 0) ∧
  d.live.Pairwise (fun a b => c.valuation a.key < c.valuation b.key)

/-! Helper lemmas about the lowerBound probe (dropWhile/takeWhile). -/

theorem dropWhile_head_not {α : Type} (p : α → Bool) :
    ∀ (l : List α) (n : α) (t : List α), l.dropWhile p = n :: t → p n = false := by
  intro l
  induction l with
  | nil => intro n t h; simp [List.dropWhile] at h
  | cons a l ih =>
    intro n t h
    by_cases hp : p a = true
    · rw [List.dropWhile_cons_of_pos hp] at h
      exact ih n t h
    · rw [List.dropWhile_cons_of_neg hp] at h
      injection h with h1 h2
      subst h1
      simpa using hp

theorem dropWhile_append_of_all {α : Type} (p : α → Bool) :
    ∀ (l1 l2 : List α), (∀ x ∈ l1, p x = true) →
      (l1 ++ l2).dropWhile p = l2.dropWhile p := by
  intro l1
  induction l1 with
  | nil => intro l2 _; rfl
  | cons a l ih =>
    intro l2 hall
    have hpa : p a = true := hall a (by simp)
    rw [List.cons_append, List.dropWhile_cons_of_pos hpa]
    exact ih l2 (fun x hx => hall x (by simp [hx]))

theorem mem_of_mem_dropWhile {α : Type} (p : α → Bool) (l : List α) (x : α)
    (h : x ∈ l.dropWhile p) : x ∈ l :=
  (List.dropWhile_sublist _).mem h

theorem mem_dropWhile_of_mem {α : Type} (p : α → Bool) (l : List α) (x : α)
    (hx : x ∈ l) (hpx : p x = false) : x ∈ l.dropWhile p := by
  have hsplit : x ∈ l.takeWhile p ++ l.dropWhile p := by
    rw [List.takeWhile_append_dropWhile]; exact hx
  rcases List.mem_append.mp hsplit with h | h
  · have := List.mem_takeWhile_imp h
    rw [hpx] at this
    cases this
  · exact h

/-! The frozen view is untouched by every writer mutation. -/

theorem add_frozen {α : Type} (c : Cmp) (insertEntry : α → Nat × α) (st : α) (d : Dict) :
    (add c insertEntry st d).2.2.frozen = d.frozen := by
  unfold add
  rcases d.live.dropWhile (belowKey c 0) with _ | ⟨n, t⟩
  · rfl
  · by_cases hc : c.lt 0 n.key = true <;> simp [hc]

theorem remove_frozen (c : Cmp) (ref : Nat) (d : Dict) :
    ((remove c ref d).getD d).frozen = d.frozen := by
  unfold remove
  by_cases h0 : ref = 0
  · simp [h0]
  · simp only [h0, if_false]
    rcases d.live.dropWhile (belowKey c ref) with _ | ⟨n, t⟩
    · rfl
    · by_cases hk : n.key = ref <;> simp [hk]

theorem applyOp_frozen (d : Dict) (op : WriterOp) : (applyOp d op).frozen = d.frozen := by
  cases op with
  | addOp c r => exact add_frozen c (fun u => (r, u)) () d
  | removeOp c r => exact remove_frozen c r d
  | moveOp f => rfl

theorem foldl_applyOp_frozen (ops : List WriterOp) :
    ∀ d : Dict, (ops.foldl applyOp d).frozen = d.frozen := by
  induction ops with
  | nil => intro d; rfl
  | cons op ops ih =>
    intro d
    rw [List.foldl_cons, ih, applyOp_frozen]

/-- C4: once freeze has returned, the frozen view it published is the key
sequence of the live tree at freeze time, and every later traversal of
that view yields exactly this sequence, regardless of interleaved add,
remove or move_entries calls performed afterwards by the writer. -/
theorem freeze_view_stable (d : Dict) (ops : List WriterOp) :
    (ops.foldl applyOp (freeze d)).frozen = d.live.map (fun n => n.key) := by
  rw [foldl_applyOp_frozen]
  rfl

/-- C8: get_num_uniques and get_memory_usage are computed from the frozen
view; after a freeze they return the size (resp. the accounting) of the
published snapshot, so entries added or removed since that freeze are
not reflected in their results. -/
theorem get_num_uniques_from_frozen (d : Dict) (ops : List WriterOp)
    (accounting : List Nat → Nat) :
    get_num_uniques (ops.foldl applyOp (freeze d)) = d.live.length ∧
    get_memory_usage accounting (ops.foldl applyOp (freeze d)) =
      accounting (d.live.map (fun n => n.key)) := by
  constructor
  · show (ops.foldl applyOp (freeze d)).frozen.length = _
    rw [foldl_applyOp_frozen]
    simp [freeze]
  · show accounting (ops.foldl applyOp (freeze d)).frozen = _
    rw [foldl_applyOp_frozen]
    rfl

/-- C9: on the duplicate path of add (the probe landed on an equal key,
wasInserted is false) the dictionary state and the allocator state are
both left exactly as they were before the call. -/
theorem add_duplicate_frame {α : Type} (c : Cmp) (insertEntry : α → Nat × α) (st : α) (d : Dict)
    (h : (add c insertEntry st d).1.wasInserted = false) :
    (add c insertEntry st d).2.2 = d ∧ (add c insertEntry st d).2.1 = st := by
  unfold add at h ⊢
  rcases hr : d.live.dropWhile (belowKey c 0) with _ | ⟨n, t⟩
  · rw [hr] at h
    simp at h
  · by_cases hc : c.lt 0 n.key = true
    · rw [hr] at h
      simp [hc] at h
    · simp [hc]

/-- Witness for C9 at a concrete hit: probing value 5 against a
dictionary holding a handle whose value is 5. -/
theorem add_duplicate_frame_witness :
    (add ⟨fun r => r, 5⟩ (fun st => (7, st + 1)) 0 ⟨[⟨5, false⟩], []⟩).2.2 =
      (⟨[⟨5, false⟩], []⟩ : Dict) ∧
    (add ⟨fun r => r, 5⟩ (fun st => (7, st + 1)) 0 ⟨[⟨5, false⟩], []⟩).2.1 = 0 :=
  add_duplicate_frame ⟨fun r => r, 5⟩ (fun st => (7, st + 1)) 0 ⟨[⟨5, false⟩], []⟩ (by decide)

theorem moveLoop_pointwise (f : Nat → Nat) :
    ∀ l : List Node,
      List.Forall₂ (fun old new => f old.key = old.key → new = old) l (moveLoop f l) := by
  intro l
  induction l with
  | nil => exact List.Forall₂.nil
  | cons n t ih =>
    refine List.Forall₂.cons ?_ ih
    intro h
    simp [h]

theorem moveLoop_id (f : Nat → Nat) :
    ∀ l : List Node, (∀ n ∈ l, f n.key = n.key) → moveLoop f l = l := by
  intro l
  induction l with
  | nil => intro _; rfl
  | cons n t ih =>
    intro h
    have hn : f n.key = n.key := h n (by simp)
    simp only [moveLoop, hn]
    rw [ih (fun m hm => h m (by simp [hm]))]
    simp

/-- C10: a node whose handle the compactable maps to itself is neither
thawed nor rewritten by move_entries, and a compaction pass in which
every move is the identity leaves the state completely unchanged. -/
theorem move_entries_identity (f : Nat → Nat) (d : Dict) :
    List.Forall₂ (fun old new => f old.key = old.key → new = old)
      d.live (move_entries f d).live ∧
    ((∀ n ∈ d.live, f n.key = n.key) → move_entries f d = d) := by
  constructor
  · exact moveLoop_pointwise f d.live
  · intro h
    show ({ d with live := moveLoop f d.live } : Dict) = d
    rw [moveLoop_id f d.live h]

/-- Witness for C10 at a concrete identity pass over a shared node. -/
theorem move_entries_identity_witness :
    move_entries (fun k => k) ⟨[⟨1, true⟩, ⟨2, false⟩], [1]⟩ =
      (⟨[⟨1, true⟩, ⟨2, false⟩], [1]⟩ : Dict) :=
  (move_entries_identity (fun k => k) ⟨[⟨1, true⟩, ⟨2, false⟩], [1]⟩).2
    (fun _ _ => rfl)

theorem probe_value_eq (c : Cmp) : c.v 0 = c.probe := by
  simp [Cmp.v]

theorem add_eval_hit {α : Type} (c : Cmp) (insertEntry : α → Nat × α) (st : α) (d : Dict)
    (n : Node) (t : List Node) (hr : d.live.dropWhile (belowKey c 0) = n :: t)
    (hv : c.v n.key = c.probe) :
    add c insertEntry st d = (⟨n.key, false⟩, st, d) := by
  have hc : c.lt 0 n.key = false := by
    unfold Cmp.lt
    rw [probe_value_eq, hv]
    simp
  unfold add
  rw [hr]
  simp [hc]

theorem add_eval_miss_at {α : Type} (c : Cmp) (insertEntry : α → Nat × α) (st : α) (d : Dict)
    (n : Node) (t : List Node) (hr : d.live.dropWhile (belowKey c 0) = n :: t)
    (hv : c.v n.key ≠ c.probe) :
    add c insertEntry st d =
      (⟨(insertEntry st).1, true⟩, (insertEntry st).2,
       { d with live := d.live.takeWhile (belowKey c 0) ++
           ⟨(insertEntry st).1, false⟩ :: n :: t }) := by
  have hnb : belowKey c 0 n = false := dropWhile_head_not _ _ _ _ hr
  have hnotlt : ¬ (c.v n.key < c.probe) := by
    simpa [belowKey, Cmp.lt, probe_value_eq] using hnb
  have hlt : c.probe < c.v n.key := lt_of_le_of_ne (le_of_not_lt hnotlt) (Ne.symm hv)
  have hc : c.lt 0 n.key = true := by
    unfold Cmp.lt
    rw [probe_value_eq]
    exact decide_eq_true hlt
  unfold add
  rw [hr]
  simp [hc]

theorem add_eval_miss_end {α : Type} (c : Cmp) (insertEntry : α → Nat × α) (st : α) (d : Dict)
    (hr : d.live.dropWhile (belowKey c 0) = []) :
    add c insertEntry st d =
      (⟨(insertEntry st).1, true⟩, (insertEntry st).2,
       { d with live := d.live.takeWhile (belowKey c 0) ++ [⟨(insertEntry st).1, false⟩] }) := by
  unfold add
  rw [hr]

/-- C1: a single add call, probed via lowerBound: when the probe lands on
a key the comparator judges equal to the probe value, add returns that
handle with wasInserted false and leaves the allocator untouched;
otherwise it invokes the allocation callback exactly once, inserts the
returned handle at the probed position, and returns it with wasInserted
true. -/
theorem add_spec {α : Type} (c : Cmp) (insertEntry : α → Nat × α) (st : α) (d : Dict) :
    (∀ n t, d.live.dropWhile (belowKey c 0) = n :: t →
      ((c.v n.key = c.probe →
          add c insertEntry st d = (⟨n.key, false⟩, st, d)) ∧
       (c.v n.key ≠ c.probe →
          add c insertEntry st d =
            (⟨(insertEntry st).1, true⟩, (insertEntry st).2,
             { d with live := d.live.takeWhile (belowKey c 0) ++
                 ⟨(insertEntry st).1, false⟩ :: n :: t })))) ∧
    (d.live.dropWhile (belowKey c 0) = [] →
      add c insertEntry st d =
        (⟨(insertEntry st).1, true⟩, (insertEntry st).2,
         { d with live := d.live.takeWhile (belowKey c 0) ++ [⟨(insertEntry st).1, false⟩] })) := by
  constructor
  · intro n t hr
    exact ⟨fun hv => add_eval_hit c insertEntry st d n t hr hv,
           fun hv => add_eval_miss_at c insertEntry st d n t hr hv⟩
  · intro hr
    exact add_eval_miss_end c insertEntry st d hr

/-- Witness for C1: a hit at probe value 5 on a dictionary holding the
values 2 and 5, reached through the hit branch of the theorem. -/
theorem add_spec_witness :
    add ⟨fun r => r, 5⟩ (fun st => (9, st + 1)) 0 ⟨[⟨2, false⟩, ⟨5, true⟩], []⟩ =
      (⟨5, false⟩, 0, ⟨[⟨2, false⟩, ⟨5, true⟩], []⟩) :=
  ((add_spec ⟨fun r => r, 5⟩ (fun st => (9, st + 1)) 0 ⟨[⟨2, false⟩, ⟨5, true⟩], []⟩).1
    ⟨5, true⟩ [] (by decide)).1 (by decide)

/-- C7: find is a pure lookup: the dictionary comes back unchanged, the
stored handle is returned when an entry the comparator judges equal to
the probe value is present, and the invalid handle 0 is returned when no
such entry is present. -/
theorem find_spec (c : Cmp) (d : Dict) (hs : SortedFor c d) :
    (find c d).2 = d ∧
    (∀ n ∈ d.live, c.valuation n.key = c.probe → (find c d).1 = n.key) ∧
    ((∀ n ∈ d.live, c.valuation n.key ≠ c.probe) → (find c d).1 = 0) := by
  obtain ⟨hnz, hsort⟩ := hs
  have h0 : c.v 0 = c.probe := by simp [Cmp.v]
  refine ⟨?_, ?_, ?_⟩
  · unfold find
    rcases d.live.dropWhile (belowKey c 0) with _ | ⟨m, t⟩
    · rfl
    · by_cases hc : c.lt 0 m.key = true <;> simp [hc]
  · intro n hn hval
    have hnk : n.key ≠ 0 := hnz n hn
    have hvn : c.v n.key = c.probe := by
      rw [Cmp.v, if_neg hnk]
      exact hval
    have hnb : belowKey c 0 n = false := by
      unfold belowKey Cmp.lt
      rw [h0, hvn]
      simp
    have hmem : n ∈ d.live.dropWhile (belowKey c 0) :=
      mem_dropWhile_of_mem _ _ _ hn hnb
    rcases hr : d.live.dropWhile (belowKey c 0) with _ | ⟨m, t⟩
    · rw [hr] at hmem
      cases hmem
    · rw [hr] at hmem
      have hsub : (m :: t).Pairwise (fun a b => c.valuation a.key < c.valuation b.key) :=
        hsort.sublist (hr ▸ List.dropWhile_sublist _)
      have hmb : belowKey c 0 m = false := dropWhile_head_not _ _ _ _ hr
      rcases List.mem_cons.mp hmem with rfl | hnt
      · have hc : c.lt 0 n.key = false := by
          unfold Cmp.lt
          rw [h0, hvn]
          simp
        unfold find
        rw [hr]
        simp [hc]
      · exfalso
        have hmmem : m ∈ d.live :=
          mem_of_mem_dropWhile _ _ _ (hr ▸ List.mem_cons_self m t)
        have hmk : m.key ≠ 0 := hnz m hmmem
        have hlt : c.valuation m.key < c.valuation n.key :=
          (List.pairwise_cons.mp hsub).1 n hnt
        rw [hval] at hlt
        have : belowKey c 0 m = true := by
          unfold belowKey Cmp.lt
          rw [h0, Cmp.v, if_neg hmk]
          exact decide_eq_true hlt
        rw [hmb] at this
        cases this
  · intro habsent
    unfold find
    rcases hr : d.live.dropWhile (belowKey c 0) with _ | ⟨m, t⟩
    · rfl
    · have hmmem : m ∈ d.live :=
        mem_of_mem_dropWhile _ _ _ (hr ▸ List.mem_cons_self m t)
      have hmk : m.key ≠ 0 := hnz m hmmem
      have hmb : belowKey c 0 m = false := dropWhile_head_not _ _ _ _ hr
      have hnotlt : ¬ (c.valuation m.key < c.probe) := by
        have := hmb
        unfold belowKey Cmp.lt at this
        rw [h0, Cmp.v, if_neg hmk] at this
        simpa using this
      have hlt : c.probe < c.valuation m.key :=
        lt_of_le_of_ne (le_of_not_lt hnotlt) (Ne.symm (habsent m hmmem))
      have hc : c.lt 0 m.key = true := by
        unfold Cmp.lt
        rw [h0, Cmp.v, if_neg hmk]
        exact decide_eq_true hlt
      simp [hc]

/-- Witness for C7: the dictionary with values 2 and 7 answers probe 7
with handle 7 and is unchanged. -/
theorem find_spec_witness :
    (find ⟨fun r => r, 7⟩ ⟨[⟨2, false⟩, ⟨7, true⟩], []⟩).1 = 7 :=
  (find_spec ⟨fun r => r, 7⟩ ⟨[⟨2, false⟩, ⟨7, true⟩], []⟩
      ⟨by decide, by decide⟩).2.1 ⟨7, true⟩ (by decide) (by decide)

/-- C5: remove requires a valid handle that is present and equal to the
key at the probed lowerBound position; the assertions double-check this
and a violation is fatal (none), while under the precondition remove
unlinks exactly the node holding that handle. -/
theorem remove_spec (c : Cmp) (ref : Nat) (d : Dict) (hs : SortedFor c d) :
    (ref ≠ 0 → ref ∈ d.keys →
      ∃ l1 n l2, d.live = l1 ++ n :: l2 ∧ n.key = ref ∧
        remove c ref d = some { d with live := l1 ++ l2 }) ∧
    ((ref = 0 ∨ ref ∉ d.keys) → remove c ref d = none) := by
  obtain ⟨hnz, hsort⟩ := hs
  constructor
  · intro h0 hmem
    obtain ⟨n, hn, hnkey⟩ : ∃ n ∈ d.live, n.key = ref := by
      simpa [Dict.keys] using hmem
    have hvref : c.v ref = c.valuation ref := by rw [Cmp.v, if_neg h0]
    have hnk : n.key ≠ 0 := hnz n hn
    have hnb : belowKey c ref n = false := by
      unfold belowKey Cmp.lt
      rw [hvref, Cmp.v, if_neg hnk, hnkey]
      simp
    have hmemd : n ∈ d.live.dropWhile (belowKey c ref) :=
      mem_dropWhile_of_mem _ _ _ hn hnb
    rcases hr : d.live.dropWhile (belowKey c ref) with _ | ⟨m, t⟩
    · rw [hr] at hmemd
      cases hmemd
    · rw [hr] at hmemd
      have hsub : (m :: t).Pairwise (fun a b => c.valuation a.key < c.valuation b.key) :=
        hsort.sublist (hr ▸ List.dropWhile_sublist _)
      have hmb : belowKey c ref m = false := dropWhile_head_not _ _ _ _ hr
      rcases List.mem_cons.mp hmemd with rfl | hnt
      · refine ⟨d.live.takeWhile (belowKey c ref), n, t, ?_, hnkey, ?_⟩
        · have hsplit := List.takeWhile_append_dropWhile (belowKey c ref) d.live
          rw [hr] at hsplit
          exact hsplit.symm
        · unfold remove
          rw [if_neg h0, hr]
          simp [hnkey]
      · exfalso
        have hmm : m ∈ d.live :=
          mem_of_mem_dropWhile _ _ _ (hr ▸ List.mem_cons_self m t)
        have hmk : m.key ≠ 0 := hnz m hmm
        have hlt : c.valuation m.key < c.valuation n.key :=
          (List.pairwise_cons.mp hsub).1 n hnt
        rw [hnkey] at hlt
        have : belowKey c ref m = true := by
          unfold belowKey Cmp.lt
          rw [hvref, Cmp.v, if_neg hmk]
          exact decide_eq_true hlt
        rw [hmb] at this
        cases this
  · intro h
    by_cases h0 : ref = 0
    · unfold remove
      rw [if_pos h0]
    · have hnot : ref ∉ d.keys := by
        rcases h with h | h
        · exact absurd h h0
        · exact h
      unfold remove
      rw [if_neg h0]
      rcases hr : d.live.dropWhile (belowKey c ref) with _ | ⟨m, t⟩
      · rfl
      · have hmm : m ∈ d.live :=
          mem_of_mem_dropWhile _ _ _ (hr ▸ List.mem_cons_self m t)
        have hmk : m.key ≠ ref := by
          intro he
          exact hnot (by simpa [Dict.keys] using ⟨m, hmm, he⟩)
        simp [hmk]

/-- Witness for C5: removing a handle that is not present fires the
assertion (the fatal path). -/
theorem remove_spec_witness :
    remove ⟨fun r => r, 0⟩ 9 ⟨[⟨2, false⟩, ⟨7, true⟩], []⟩ = none :=
  (remove_spec ⟨fun r => r, 0⟩ 9 ⟨[⟨2, false⟩, ⟨7, true⟩], []⟩
    ⟨by decide, by decide⟩).2 (Or.inr (by decide))

theorem buildLoop_eq :
    ∀ l : List (Nat × Nat),
      buildLoop l =
        ((l.filter (fun pr => pr.2 ≠ 0)).map (fun pr => (⟨pr.1, false⟩ : Node)),
         (l.filter (fun pr => pr.2 = 0)).map (fun pr => pr.1)) := by
  intro l
  induction l with
  | nil => rfl
  | cons a l ih =>
    rcases a with ⟨r, cnt⟩
    by_cases h : cnt = 0
    · simp [buildLoop, ih, h]
    · simp [buildLoop, ih, h]

/-- C6: build checks its preconditions (equal lengths, nonempty input)
before any mutation and fails fatally when they do not hold; otherwise
it skips the first (reserved) element entirely, inserts every remaining
handle whose ref count is nonzero, and hands every remaining handle with
a zero ref count to the hold callback instead of inserting it. -/
theorem build_spec (refs ref_counts : List Nat) (d : Dict) :
    ((refs.length ≠ ref_counts.length ∨ refs = []) → build refs ref_counts d = none) ∧
    (refs.length = ref_counts.length → refs ≠ [] →
      build refs ref_counts d =
        some ({ d with live := (((refs.zip ref_counts).drop 1).filter
                  (fun pr => pr.2 ≠ 0)).map (fun pr => (⟨pr.1, false⟩ : Node)) },
              (((refs.zip ref_counts).drop 1).filter (fun pr => pr.2 = 0)).map
                (fun pr => pr.1))) := by
  constructor
  · intro h
    have hneg : ¬ (refs.length = ref_counts.length ∧ refs ≠ []) := by
      rcases h with h | h
      · exact fun hc => h hc.1
      · exact fun hc => hc.2 h
    unfold build
    rw [if_neg hneg]
  · intro h1 h2
    unfold build
    rw [if_pos ⟨h1, h2⟩, buildLoop_eq]

/-- Witness for C6: the first slot (handle 1) is skipped, the zero
ref-count handle 2 is held, and handle 3 is inserted. -/
theorem build_spec_witness :
    build [1, 2, 3] [9, 0, 4] ⟨[], []⟩ = some (⟨[⟨3, false⟩], []⟩, [2]) :=
  (build_spec [1, 2, 3] [9, 0, 4] ⟨[], []⟩).2 (by decide) (by decide)

theorem addIter_hit {α : Type} (c : Cmp) (insertEntry : α → Nat × α) (d : Dict)
    (nd : Node) (t : List Node)
    (hdrop : d.live.dropWhile (belowKey c 0) = nd :: t)
    (hv : c.v nd.key = c.probe) :
    ∀ (m : Nat) (st : α),
      addIter c insertEntry m st d = (List.replicate m ⟨nd.key, false⟩, st, d) := by
  intro m
  induction m with
  | zero => intro st; rfl
  | succ k ih =>
    intro st
    simp only [addIter, add_eval_hit c insertEntry st d nd t hdrop hv, ih st]
    rfl

/-- C2: starting from a state without the probed value, the first add of
a sequence of add calls for that value allocates (the allocator state
advances exactly once, to the state after one allocation), and every one
of the m subsequent calls returns the very same handle with wasInserted
false, leaving both the dictionary and the allocator untouched. -/
theorem add_unique {α : Type} (c : Cmp) (insertEntry : α → Nat × α) (st : α) (d : Dict)
    (m : Nat) (hs : SortedFor c d)
    (habsent : ∀ n ∈ d.live, c.valuation n.key ≠ c.probe)
    (hvalid : (insertEntry st).1 ≠ 0)
    (hvalue : c.valuation (insertEntry st).1 = c.probe) :
    addIter c insertEntry (m + 1) st d =
      (⟨(insertEntry st).1, true⟩ :: List.replicate m ⟨(insertEntry st).1, false⟩,
       (insertEntry st).2,
       { d with live := d.live.takeWhile (belowKey c 0) ++
           ⟨(insertEntry st).1, false⟩ :: d.live.dropWhile (belowKey c 0) }) := by
  obtain ⟨hnz, _⟩ := hs
  have hmiss : add c insertEntry st d =
      (⟨(insertEntry st).1, true⟩, (insertEntry st).2,
       { d with live := d.live.takeWhile (belowKey c 0) ++
           ⟨(insertEntry st).1, false⟩ :: d.live.dropWhile (belowKey c 0) }) := by
    rcases hr : d.live.dropWhile (belowKey c 0) with _ | ⟨n, t⟩
    · rw [add_eval_miss_end c insertEntry st d hr]
    · have hn : n ∈ d.live := mem_of_mem_dropWhile _ _ _ (hr ▸ List.mem_cons_self n t)
      have hne : c.v n.key ≠ c.probe := by
        rw [Cmp.v, if_neg (hnz n hn)]
        exact habsent n hn
      rw [add_eval_miss_at c insertEntry st d n t hr hne]
  have hknode : belowKey c 0 (⟨(insertEntry st).1, false⟩ : Node) = false := by
    show c.lt (insertEntry st).1 0 = false
    unfold Cmp.lt
    rw [probe_value_eq, Cmp.v, if_neg hvalid, hvalue]
    simp
  have hdrop1 :
      (d.live.takeWhile (belowKey c 0) ++
        ⟨(insertEntry st).1, false⟩ :: d.live.dropWhile (belowKey c 0)).dropWhile
          (belowKey c 0) =
      ⟨(insertEntry st).1, false⟩ :: d.live.dropWhile (belowKey c 0) := by
    rw [dropWhile_append_of_all (belowKey c 0) _ _
      (fun x hx => List.mem_takeWhile_imp hx)]
    exact List.dropWhile_cons_of_neg (by rw [hknode]; exact Bool.false_ne_true)
  have hv1 : c.v (insertEntry st).1 = c.probe := by
    rw [Cmp.v, if_neg hvalid]
    exact hvalue
  simp only [addIter, hmiss]
  rw [addIter_hit c insertEntry
      { d with live := d.live.takeWhile (belowKey c 0) ++
          ⟨(insertEntry st).1, false⟩ :: d.live.dropWhile (belowKey c 0) }
      ⟨(insertEntry st).1, false⟩ (d.live.dropWhile (belowKey c 0)) hdrop1 hv1 m
      (insertEntry st).2]

/-- Witness for C2: probing value 5 three times against a dictionary
holding values 2 and 7; the first call allocates handle 5, the next two
return it without inserting, and the allocator ran exactly once. -/
theorem add_unique_witness :
    addIter ⟨fun k => k, 5⟩ (fun s => (5, s + 1)) 3 0 ⟨[⟨2, false⟩, ⟨7, true⟩], []⟩ =
      ([⟨5, true⟩, ⟨5, false⟩, ⟨5, false⟩], 1,
       ⟨[⟨2, false⟩, ⟨5, false⟩, ⟨7, true⟩], []⟩) := by
  have h := add_unique ⟨fun k => k, 5⟩ (fun s => (5, s + 1)) 0
    ⟨[⟨2, false⟩, ⟨7, true⟩], []⟩ 2 ⟨by decide, by decide⟩
    (by decide) (by decide) (by decide)
  exact h

theorem moveLoop_map (f : Nat → Nat) :
    ∀ l : List Node,
      moveLoop f l = l.map (fun n => if f n.key = n.key then n else ⟨f n.key, false⟩) := by
  intro l
  induction l with
  | nil => rfl
  | cons n t ih =>
    by_cases h : f n.key = n.key <;> simp [moveLoop, ih, h]

/-- C3: move_entries visits the live tree in order; a node whose handle
moved is thawed (unshared) and gets its key rewritten in place, so after
the call every live key equals the compactable move of its prior value,
positional order is preserved (and comparator order too, since moving an
entry keeps its value), and no key of the published frozen view
changed. -/
theorem move_entries_spec (move : Nat → Nat) (d : Dict) (c : Cmp)
    (hval : ∀ k, c.valuation (move k) = c.valuation k) :
    (move_entries move d).live =
      d.live.map (fun n => if move n.key = n.key then n else ⟨move n.key, false⟩) ∧
    (move_entries move d).keys = d.keys.map move ∧
    (move_entries move d).frozen = d.frozen ∧
    (d.live.Pairwise (fun a b => c.valuation a.key < c.valuation b.key) →
      (move_entries move d).live.Pairwise
        (fun a b => c.valuation a.key < c.valuation b.key)) := by
  have hmap : (move_entries move d).live =
      d.live.map (fun n => if move n.key = n.key then n else ⟨move n.key, false⟩) :=
    moveLoop_map move d.live
  have hvkey : ∀ n : Node,
      c.valuation (if move n.key = n.key then n else (⟨move n.key, false⟩ : Node)).key =
        c.valuation n.key := by
    intro n
    by_cases h : move n.key = n.key
    · simp [h]
    · simp [h, hval]
  refine ⟨hmap, ?_, rfl, ?_⟩
  · show (move_entries move d).live.map (fun n => n.key) =
      (d.live.map (fun n => n.key)).map move
    rw [hmap, List.map_map, List.map_map]
    congr 1
    funext n
    by_cases h : move n.key = n.key
    · simp [Function.comp, h]
    · simp [Function.comp, h]
  · intro hsort
    rw [hmap, List.pairwise_map]
    refine hsort.imp ?_
    intro a b hab
    rw [hvkey a, hvkey b]
    exact hab

/-- Witness for C3: a compaction that relocates every handle by four
slots while preserving values modulo four rewrites the live keys. -/
theorem move_entries_spec_witness :
    (move_entries (fun k => k + 4) ⟨[⟨1, true⟩, ⟨2, true⟩], [1, 2]⟩).keys = [5, 6] := by
  have h := (move_entries_spec (fun k => k + 4) ⟨[⟨1, true⟩, ⟨2, true⟩], [1, 2]⟩
    ⟨fun k => k % 4, 0⟩ (fun k => Nat.add_mod_right k 4)).2.1
  exact h

end UniqueStore
